import Mathlib

/-!
Verification development for the `instrument` crate (`src/recording.rs`,
`src/platform.rs`, `src/lib.rs`): a shallow embedding of the thread-local
region-recording state machine, the handoff queue, profile reconstruction
(`RawThreadProfile::profile`) and the Chrome-tracing export, together with
theorems about the claims of the specification.

Modelling conventions:
* machine integers (`usize`, `u32`) are `Nat`; timestamps (`i64`, `i128`)
  are `Int` — none of the modelled arithmetic overflows in the source's
  value ranges, so no `% 2^w` reduction is required;
* `RecordingTimestamp` is modelled by its nanosecond value (`Int`); on the
  non-Windows path of `platform.rs`, `to_nanoseconds` is the identity cast;
* `&'static str` is `String`; Rust's `str` ordering (byte-wise on UTF-8)
  agrees with Lean's `String` ordering (code-point lexicographic) because
  UTF-8 byte order coincides with code-point order;
* `BTreeMap` is modelled as an association list kept sorted by key, with
  `entry … and_modify … or_insert` becoming a sorted insert;
* panics (`expect`, `debug_assert`, indexing out of bounds) are modelled by
  `Option`, with `none` meaning the source panics.
-/

/-- Model of `RegionRecordBackend`: one region activation record.  The field
`end_` models the Rust field `end` (a reserved word in Lean). -/
structure RegionRecordBackend where
  name : String
  file : String
  line : Nat
  parent : Option Nat
  start : Int
  end_ : Option Int
deriving DecidableEq

instance : Inhabited RegionRecordBackend :=
  ⟨⟨"", "", 0, none, 0, none⟩⟩

/-- Model of `RawThreadProfile`: thread id plus the flat activation list. -/
structure RawThreadProfile where
  thread_id : Nat
  region_backends : List RegionRecordBackend
deriving DecidableEq

/-- Model of `RawThreadProfile::new` (the `Vec::with_capacity` is an empty list). -/
def RawThreadProfile.new (thread_id : Nat) : RawThreadProfile :=
  { thread_id := thread_id, region_backends := [] }

/-- Model of `ThreadLocal`: the thread-confined session (optional raw profile
plus the open-region stack; the `VecDeque` stack is a list whose last element
is the top, matching `push_back`/`back`/`pop_back`). -/
structure ThreadLocal where
  raw_thread_profile : Option RawThreadProfile
  stack : List Nat
deriving DecidableEq

/-- Combined state of one producing thread: its thread-local session together
with the global handoff queue `GLOBAL.profiles` (front = head of the list). -/
structure SysState where
  tls : ThreadLocal
  profiles : List RawThreadProfile
deriving DecidableEq

/-- Model of `ThreadLocal::new`: the thread-local slot starts with an empty
raw profile already present and an empty stack. -/
def initState (tid : Nat) : SysState :=
  { tls := { raw_thread_profile := some (RawThreadProfile.new tid), stack := [] }
    profiles := [] }

/-- Model of `RegionRecord::new` (region open).  `tid` models `thread_id::get()`
and `t` models `RecordingTimestamp::now()`. -/
def regionNew (name file : String) (line : Nat) (tid : Nat) (t : Int) (s : SysState) : SysState :=
  let tl := s.tls
  let pair : RawThreadProfile × Nat :=
    match tl.raw_thread_profile with
    | some rp => (rp, rp.region_backends.length)
    | none => (RawThreadProfile.new tid, 0)
  let parent : Option Nat := if tl.stack.length > 0 then tl.stack.getLast? else none
  let stack' := tl.stack ++ [pair.2]
  let rp' : RawThreadProfile :=
    { pair.1 with region_backends :=
        pair.1.region_backends ++ [⟨name, file, line, parent, t, none⟩] }
  { s with tls := { raw_thread_profile := some rp', stack := stack' } }

/-- Model of `Drop for RegionRecord` (region close) at time `t`.  `none` models
a panic: empty stack (`debug_assert` / `expect`), missing raw profile, or an
out-of-range stack index.  When the popped stack is empty the raw profile is
taken out of the slot and pushed onto the global queue. -/
def regionDrop (t : Int) (s : SysState) : Option SysState :=
  let tl := s.tls
  match tl.stack.getLast? with
  | none => none
  | some index =>
    match tl.raw_thread_profile with
    | none => none
    | some rp =>
      match rp.region_backends[index]? with
      | none => none
      | some rb =>
        let rp' : RawThreadProfile :=
          { rp with region_backends :=
              rp.region_backends.set index { rb with end_ := some t } }
        let stack' := tl.stack.dropLast
        if stack'.length = 0 then
          some { tls := { raw_thread_profile := none, stack := stack' }
                 profiles := s.profiles ++ [rp'] }
        else
          some { s with tls := { raw_thread_profile := some rp', stack := stack' } }

/-- One recording operation of a thread: open a region or close the innermost one. -/
inductive Op where
  | openR (name file : String) (line : Nat) (t : Int)
  | closeR (t : Int)
deriving DecidableEq

/-- Run a sequence of open/close operations on one thread (`none` = some close panicked). -/
def runOps (tid : Nat) : List Op → SysState → Option SysState
  | [], s => some s
  | Op.openR n f l t :: rest, s => runOps tid rest (regionNew n f l tid t s)
  | Op.closeR t :: rest, s =>
    match regionDrop t s with
    | none => none
    | some s' => runOps tid rest s'

/-- Model of `try_recv`: pop the front of the queue if present; the queue state
is returned alongside (the mutex is implicit — the whole call is one atomic step). -/
def tryRecv (profiles : List RawThreadProfile) :
    Option RawThreadProfile × List RawThreadProfile :=
  match profiles with
  | [] => (none, [])
  | p :: rest => (some p, rest)

/-- Model of `Region`: the (name, file, line) identity triple. -/
structure Region where
  name : String
  file : String
  line : Nat
deriving DecidableEq

/-- Model of `Region::from(&RegionRecordBackend)`. -/
def Region.fromBackend (rb : RegionRecordBackend) : Region :=
  { name := rb.name, file := rb.file, line := rb.line }

/-- The derived `Ord` of `Region`: lexicographic by `name`, then `file`, then `line`
(field declaration order, as `#[derive(PartialOrd, Ord)]` produces). -/
def Region.lt (a b : Region) : Prop :=
  a.name < b.name ∨ (a.name = b.name ∧ (a.file < b.file ∨ (a.file = b.file ∧ a.line < b.line)))

/-- Kernel-computable decision procedure for `String` ordering (via the
character-list order, which the string order coincides with). -/
def decideStrLt (a b : String) : Decidable (a < b) :=
  decidable_of_iff (a.toList < b.toList) String.lt_iff_toList_lt.symm

instance (a b : Region) : Decidable (Region.lt a b) :=
  @instDecidableOr _ _ (decideStrLt a.name b.name)
    (@instDecidableAnd _ _ (instDecidableEqString a.name b.name)
      (@instDecidableOr _ _ (decideStrLt a.file b.file)
        (@instDecidableAnd _ _ (instDecidableEqString a.file b.file)
          (Nat.decLt a.line b.line))))

/-- Model of `RegionExecution`: a reconstructed execution node.  `start` and
`end_` are the `Instant` nanosecond values. -/
inductive RegionExecution where
  | mk (children : List RegionExecution) (region : Region) (start : Int) (end_ : Int) :
      RegionExecution

/-- The children of a `RegionExecution`. -/
def RegionExecution.children : RegionExecution → List RegionExecution
  | .mk c _ _ _ => c

/-- The region identity of a `RegionExecution`. -/
def RegionExecution.region : RegionExecution → Region
  | .mk _ r _ _ => r

/-- The start instant (nanoseconds) of a `RegionExecution`. -/
def RegionExecution.start : RegionExecution → Int
  | .mk _ _ s _ => s

/-- The end instant (nanoseconds) of a `RegionExecution`. -/
def RegionExecution.end_ : RegionExecution → Int
  | .mk _ _ _ e => e

/-- Model of `ThreadProfile`; the `BTreeMap<Rc<Region>, Vec<RegionExecution>>`
is an association list sorted by `Region.lt`. -/
structure ThreadProfile where
  thread_id : Nat
  regions : List (Region × List RegionExecution)
  root_region_executions : List RegionExecution

/-- Lookup in the children-indices map (`children_indices.get(&index)`), with
a missing key giving no children, as at the use site in the source. -/
def lookupNat : List (Nat × List Nat) → Nat → List Nat
  | [], _ => []
  | (k, v) :: rest, p => if k = p then v else lookupNat rest p

/-- Sorted-map insert for `children_indices.entry(p) … push(i) / or_insert(vec![i])`. -/
def insertChildIndex : List (Nat × List Nat) → Nat → Nat → List (Nat × List Nat)
  | [], p, i => [(p, [i])]
  | (k, v) :: rest, p, i =>
    if p = k then (k, v ++ [i]) :: rest
    else if p < k then (p, [i]) :: (k, v) :: rest
    else (k, v) :: insertChildIndex rest p i

/-- The first loop of `RawThreadProfile::profile`: one pass over the enumerated
activation list collecting root indices and the children-indices map (`n` is the
index of the head of the remaining list). -/
def buildMaps : Nat → List RegionRecordBackend → List Nat × List (Nat × List Nat) →
    List Nat × List (Nat × List Nat)
  | _, [], acc => acc
  | n, rb :: rest, (roots, m) =>
    match rb.parent with
    | some p => buildMaps (n + 1) rest (roots, insertChildIndex m p n)
    | none => buildMaps (n + 1) rest (roots ++ [n], m)

/-- Lookup of the bucket of one region identity in the regions map (empty when absent). -/
def lookupRegion : List (Region × List RegionExecution) → Region → List RegionExecution
  | [], _ => []
  | (k, v) :: rest, r => if k = r then v else lookupRegion rest r

/-- Sorted-map insert for `regions.entry(region).and_modify(push).or_insert(vec![…])`. -/
def insertRegionExec : List (Region × List RegionExecution) → Region → RegionExecution →
    List (Region × List RegionExecution)
  | [], r, e => [(r, [e])]
  | (k, v) :: rest, r, e =>
    if r = k then (k, v ++ [e]) :: rest
    else if Region.lt r k then (r, [e]) :: (k, v) :: rest
    else (k, v) :: insertRegionExec rest r e

/-- Sequential generation of a list of sibling executions, threading the regions
map (the `for child_index in indices` loop, and also the root loop of `profile`). -/
def genChildren
    (g : Nat → List (Region × List RegionExecution) →
      Option (RegionExecution × List (Region × List RegionExecution))) :
    List Nat → List (Region × List RegionExecution) →
      Option (List RegionExecution × List (Region × List RegionExecution))
  | [], regions => some ([], regions)
  | i :: rest, regions =>
    match g i regions with
    | none => none
    | some (re, regions1) =>
      match genChildren g rest regions1 with
      | none => none
      | some (res, regions2) => some (re :: res, regions2)

/-- Model of `RawThreadProfile::generate_region_execution`, with explicit fuel
for the recursion (the source recursion terminates because every child index is
strictly larger than its parent's; out of fuel is `none`, which the sufficiency
lemmas rule out for well-formed input).  `none` also models the panics: index
out of bounds and the `expect` on a missing `end`. -/
def generateOne (bs : List RegionRecordBackend) (cmap : List (Nat × List Nat)) :
    Nat → Nat → List (Region × List RegionExecution) →
      Option (RegionExecution × List (Region × List RegionExecution))
  | 0, _, _ => none
  | fuel + 1, index, regions =>
    match bs[index]? with
    | none => none
    | some rb =>
      match genChildren (generateOne bs cmap fuel) (lookupNat cmap index) regions with
      | none => none
      | some (children, regions1) =>
        match rb.end_ with
        | none => none
        | some e =>
          let region : Region := Region.fromBackend rb
          let re : RegionExecution := .mk children region rb.start e
          some (re, insertRegionExec regions1 region re)

/-- Model of `RawThreadProfile::profile`: build the root/children index maps,
then materialize every root in order, threading the regions map.  The fuel
`bs.length` is sufficient for every well-formed input (proved below); `none`
models a panic of the source. -/
def RawThreadProfile.profile (rp : RawThreadProfile) : Option ThreadProfile :=
  let rm := buildMaps 0 rp.region_backends ([], [])
  match genChildren (generateOne rp.region_backends rm.2 rp.region_backends.length) rm.1 [] with
  | none => none
  | some (roots, regions) =>
    some { thread_id := rp.thread_id, regions := regions, root_region_executions := roots }

/-- Model of one Chrome-tracing complete-event record as emitted by `traverse`.
The `f64` values `ts` and `dur` are modelled as exact rationals (the divisions
by `1000.0` in the source). -/
structure TraceEvent where
  name : String
  ph : String
  ts : Rat
  dur : Rat
  pid : Nat
  tid : Nat
deriving DecidableEq

mutual
/-- Model of `traverse` at the record level: the event of `region_execution`
followed by the events of its children, in order (the source emits the record
before recursing). -/
def traverse (pid tid : Nat) : RegionExecution → List TraceEvent
  | .mk children region s e =>
    { name := region.name, ph := "X", ts := (s : Rat) / 1000,
      dur := (((e - s : Int)) : Rat) / 1000, pid := pid, tid := tid }
      :: traverseList pid tid children
/-- The events of a list of sibling executions, in order. -/
def traverseList (pid tid : Nat) : List RegionExecution → List TraceEvent
  | [] => []
  | c :: cs => traverse pid tid c ++ traverseList pid tid cs
end

/-- Model of `ToChromeTracing for ThreadProfile` at the record level.  `pid`
models the value of `std::process::id()`. -/
def ThreadProfile.to_chrome_tracing (tp : ThreadProfile) (pid : Nat) : List TraceEvent :=
  traverseList pid tp.thread_id tp.root_region_executions

/-- Model of `json::stringify` on one complete-event object, with the keys in
insertion order as in the source.  The rendering of the two `f64` numbers is
abstracted by the exact decimal rendering of the rational value; no theorem
below depends on the digits produced. -/
def stringifyEvent (ev : TraceEvent) : String :=
  "\x7b\"name\":\"" ++ ev.name ++ "\",\"ph\":\"" ++ ev.ph ++ "\",\"ts\":"
    ++ toString ev.ts ++ ",\"dur\":" ++ toString ev.dur ++ ",\"pid\":"
    ++ toString ev.pid ++ ",\"tid\":" ++ toString ev.tid ++ "\x7d"

mutual
/-- Model of `traverse` at the byte level: the source writes
`stringify(data)` followed by the single byte `","`, then the children. -/
def traverseOut (pid tid : Nat) : RegionExecution → String
  | .mk children region s e =>
    stringifyEvent
      { name := region.name, ph := "X", ts := (s : Rat) / 1000,
        dur := (((e - s : Int)) : Rat) / 1000, pid := pid, tid := tid }
      ++ "," ++ traverseOutList pid tid children
/-- Byte output of a list of sibling executions, in order. -/
def traverseOutList (pid tid : Nat) : List RegionExecution → String
  | [] => ""
  | c :: cs => traverseOut pid tid c ++ traverseOutList pid tid cs
end

/-- Model of `ToChromeTracing for ThreadProfile` at the byte level. -/
def ThreadProfile.to_chrome_tracing_out (tp : ThreadProfile) (pid : Nat) : String :=
  traverseOutList pid tp.thread_id tp.root_region_executions

/-! ### Specification-side definitions

The following definitions are written from the words of the specification and
claims, to be compared with the source-derived definitions above. -/

/-- Spec-side: the indices of the activations whose `parent` is `some p`, in
increasing index order (`n` is the index of the head of the remaining list). -/
def childrenSpec (p : Nat) : Nat → List RegionRecordBackend → List Nat
  | _, [] => []
  | n, rb :: rest =>
    (if rb.parent = some p then [n] else []) ++ childrenSpec p (n + 1) rest

/-- Spec-side: the indices of the activations whose `parent` is `none`, in
increasing index order. -/
def rootsSpec : Nat → List RegionRecordBackend → List Nat
  | _, [] => []
  | n, rb :: rest =>
    (if rb.parent = none then [n] else []) ++ rootsSpec (n + 1) rest

/-- Spec-side: `Represents bs i re` says the execution node `re` is the faithful
materialization of activation `i` of the flat list `bs`: its identity is the
recorded (name, file, line) triple, its start/end instants are the recorded
timestamps, and its children represent exactly the activations whose parent is
`i`, in increasing index (chronological creation) order. -/
inductive Represents (bs : List RegionRecordBackend) : Nat → RegionExecution → Prop where
  | mk : ∀ (i : Nat) (rb : RegionRecordBackend) (children : List RegionExecution) (e : Int),
      bs[i]? = some rb →
      rb.end_ = some e →
      List.Forall₂ (Represents bs) (childrenSpec i 0 bs) children →
      Represents bs i (RegionExecution.mk children (Region.fromBackend rb) rb.start e)

mutual
/-- The (identity, node) registration pairs of one execution tree, in the order
`generate_region_execution` performs them: all descendants first (depth-first,
children in order), then the node itself. -/
def postPairs : RegionExecution → List (Region × RegionExecution)
  | .mk children r s e => postPairsList children ++ [(r, .mk children r s e)]
/-- Registration pairs of a list of sibling trees, in order. -/
def postPairsList : List RegionExecution → List (Region × RegionExecution)
  | [] => []
  | c :: cs => postPairs c ++ postPairsList cs
end

/-- Fold a list of registration pairs into a regions map by sorted insertion. -/
def insertAllExecs : List (Region × List RegionExecution) → List (Region × RegionExecution) →
    List (Region × List RegionExecution)
  | m, [] => m
  | m, (r, e) :: rest => insertAllExecs (insertRegionExec m r e) rest

mutual
/-- Spec-side: the pre-order node list of one execution tree — the node itself
before any of its descendants, descendants in chronological (child) order. -/
def preOrderNodes : RegionExecution → List RegionExecution
  | .mk children r s e => .mk children r s e :: preOrderForest children
/-- Pre-order node list of a forest, roots in order. -/
def preOrderForest : List RegionExecution → List RegionExecution
  | [] => []
  | c :: cs => preOrderNodes c ++ preOrderForest cs
end

/-- Spec-side: the complete-event record of one execution node, with the fields
claimed by the specification: the region's name, phase `"X"`, start and
duration converted from nanoseconds to microseconds, the given process id and
the profile's thread id. -/
def eventFor (pid tid : Nat) (re : RegionExecution) : TraceEvent :=
  { name := re.region.name, ph := "X", ts := (re.start : Rat) / 1000,
    dur := ((re.end_ - re.start : Int) : Rat) / 1000, pid := pid, tid := tid }

/-! ### Decidable well-formedness of raw profiles -/

/-- Every `parent` index recorded in the list is strictly smaller than its
owner's index (`n` is the index of the head of the remaining list). -/
def parentsWFb : Nat → List RegionRecordBackend → Bool
  | _, [] => true
  | n, rb :: rest =>
    (match rb.parent with
     | none => true
     | some p => decide (p < n)) && parentsWFb (n + 1) rest

/-- Every activation in the list carries an end timestamp. -/
def endsPresentb (l : List RegionRecordBackend) : Bool :=
  l.all (fun rb => rb.end_.isSome)

/-- A finalized raw thread profile: parent indices form a forest and every
activation has been closed. -/
def finalizedb (rp : RawThreadProfile) : Bool :=
  parentsWFb 0 rp.region_backends && endsPresentb rp.region_backends

/-- Every execution stored in a bucket of the map carries the bucket's identity. -/
def MapCoherent (m : List (Region × List RegionExecution)) : Prop :=
  ∀ kv ∈ m, ∀ e ∈ kv.2, RegionExecution.region e = kv.1

/-- Activation `j` is reachable from activation `i` along child links of the
flat list (reflexive-transitive closure of the child relation). -/
inductive ReachesFrom (bs : List RegionRecordBackend) : Nat → Nat → Prop where
  | refl (i : Nat) : ReachesFrom bs i i
  | child {i p j : Nat} : ReachesFrom bs i p → j ∈ childrenSpec p 0 bs → ReachesFrom bs i j

/-- The activation list currently held in a thread-local slot (empty when the
slot is empty — the next open starts a fresh generation). -/
def oldBackends (tl : ThreadLocal) : List RegionRecordBackend :=
  match tl.raw_thread_profile with
  | some rp => rp.region_backends
  | none => []

/-- The thread id the session will carry after an open: the existing one, or
`thread_id::get()` for a fresh generation. -/
def oldTid (tl : ThreadLocal) (tid : Nat) : Nat :=
  match tl.raw_thread_profile with
  | some rp => rp.thread_id
  | none => tid

/-- The session contents after an open: the new activation record is appended
at index `length` of the existing list, its parent is the index on top of the
open-region stack (`none` when the stack is empty), its start is the clock
value and its end is absent. -/
def newSession (name file : String) (line tid : Nat) (t : Int) (tl : ThreadLocal) :
    RawThreadProfile :=
  { thread_id := oldTid tl tid,
    region_backends := oldBackends tl ++ [⟨name, file, line, tl.stack.getLast?, t, none⟩] }

/-- The session contents after a close at time `t`: only the activation at the
top-of-stack index changes, receiving its end timestamp. -/
def closedSession (t : Int) (rp : RawThreadProfile) (index : Nat) (rb : RegionRecordBackend) :
    RawThreadProfile :=
  { rp with region_backends := rp.region_backends.set index { rb with end_ := some t } }

/-- Invariant of the thread-local session: the recorded parent links form a
forest, the open-region stack is strictly increasing bottom-to-top, all its
entries are valid indices, and an activation is missing its end exactly when
its index is still on the stack.  When the slot is empty the stack is empty. -/
def TlsInv (tl : ThreadLocal) : Prop :=
  match tl.raw_thread_profile with
  | none => tl.stack = []
  | some rp =>
    parentsWFb 0 rp.region_backends = true ∧
    List.Pairwise (· < ·) tl.stack ∧
    (∀ i ∈ tl.stack, i < rp.region_backends.length) ∧
    (∀ j ∈ List.range rp.region_backends.length,
      ((rp.region_backends.getD j default).end_ = none ↔ j ∈ tl.stack))

/-- Invariant of the combined state: every queued profile is finalized, and the
thread-local session satisfies `TlsInv`. -/
def StateInv (s : SysState) : Prop :=
  (∀ rp ∈ s.profiles, parentsWFb 0 rp.region_backends = true ∧
    endsPresentb rp.region_backends = true) ∧
  TlsInv s.tls

/-! ### Concrete inputs used by the claims -/

/-- Raw profile of: region A opened, region B opened and closed, A closed. -/
def exAB : RawThreadProfile :=
  { thread_id := 3,
    region_backends :=
      [ ⟨"A", "f", 1, none, 0, some 30⟩,
        ⟨"B", "f", 2, some 0, 10, some 20⟩ ] }

/-- Raw profile of two nested activations of the same identity: the outer one
starts at 10 and ends at 50, the inner one starts at 20 and ends at 30. -/
def exC4 : RawThreadProfile :=
  { thread_id := 3,
    region_backends :=
      [ ⟨"A", "f", 1, none, 10, some 50⟩,
        ⟨"A", "f", 1, some 0, 20, some 30⟩ ] }

/-- A reconstructed profile with a single root execution. -/
def exSingleTp : ThreadProfile :=
  { thread_id := 7,
    regions := [(⟨"m", "f", 1⟩, [RegionExecution.mk [] ⟨"m", "f", 1⟩ 0 5000])],
    root_region_executions := [RegionExecution.mk [] ⟨"m", "f", 1⟩ 0 5000] }

/-- The start instants of the bucket of identity `r` after reconstructing `rp`
(empty when reconstruction panics). -/
def bucketStartsOf (rp : RawThreadProfile) (r : Region) : List Int :=
  match rp.profile with
  | some tp => (lookupRegion tp.regions r).map RegionExecution.start
  | none => []

/-- The raw profile produced by one open/close round trip at times 0 and 5. -/
def rtProfile : RawThreadProfile :=
  { thread_id := 7, region_backends := [⟨"m", "f", 1, none, 0, some 5⟩] }

/-- The state after one open/close round trip on thread 7. -/
def finalStateRT : SysState :=
  { tls := { raw_thread_profile := none, stack := [] }, profiles := [rtProfile] }

/-! ### Lemmas about the children/roots index pass -/

theorem keys_mem_insertChildIndex :
    ∀ (m : List (Nat × List Nat)) (p i : Nat) (b : Nat × List Nat),
      b ∈ insertChildIndex m p i → b.1 = p ∨ b.1 ∈ m.map Prod.fst
  | [], p, i, b, hb => by
    simp only [insertChildIndex, List.mem_singleton] at hb
    subst hb; simp
  | (k, v) :: rest, p, i, b, hb => by
    simp only [insertChildIndex] at hb
    split_ifs at hb with h1 h2
    · rcases List.mem_cons.mp hb with h | h
      · subst h; right; simp [h1]
      · right; simp only [List.map_cons, List.mem_cons]
        right; exact List.mem_map_of_mem Prod.fst h
    · rcases List.mem_cons.mp hb with h | h
      · subst h; left; rfl
      · rcases List.mem_cons.mp h with h' | h'
        · subst h'; right; simp
        · right; simp only [List.map_cons, List.mem_cons]
          right; exact List.mem_map_of_mem Prod.fst h'
    · rcases List.mem_cons.mp hb with h | h
      · subst h; right; simp
      · rcases keys_mem_insertChildIndex rest p i b h with h' | h'
        · left; exact h'
        · right; simp only [List.map_cons, List.mem_cons]; right; exact h'

theorem keysSorted_insertChildIndex :
    ∀ (m : List (Nat × List Nat)) (p i : Nat),
      List.Pairwise (fun a b => a.1 < b.1) m →
      List.Pairwise (fun a b => a.1 < b.1) (insertChildIndex m p i)
  | [], p, i, _ => by simp [insertChildIndex]
  | (k, v) :: rest, p, i, hm => by
    rw [List.pairwise_cons] at hm
    obtain ⟨hk, hrest⟩ := hm
    simp only [insertChildIndex]
    split_ifs with h1 h2
    · exact List.pairwise_cons.mpr ⟨hk, hrest⟩
    · refine List.pairwise_cons.mpr ⟨?_, List.pairwise_cons.mpr ⟨hk, hrest⟩⟩
      intro b hb
      rcases List.mem_cons.mp hb with h | h
      · subst h; exact h2
      · exact lt_trans h2 (hk b h)
    · refine List.pairwise_cons.mpr ⟨?_, keysSorted_insertChildIndex rest p i hrest⟩
      intro b hb
      rcases keys_mem_insertChildIndex rest p i b hb with h | h
      · rw [h]; omega
      · obtain ⟨a, ha, hab⟩ := List.mem_map.mp h
        rw [← hab]; exact hk a ha

theorem lookupNat_eq_nil_of_lt :
    ∀ (m : List (Nat × List Nat)) (q : Nat), (∀ a ∈ m, q < a.1) → lookupNat m q = []
  | [], _, _ => rfl
  | (k, v) :: rest, q, h => by
    have hk : q < k := h (k, v) (List.mem_cons_self _ _)
    simp only [lookupNat, if_neg (by omega : ¬ k = q)]
    exact lookupNat_eq_nil_of_lt rest q (fun a ha => h a (List.mem_cons_of_mem _ ha))

theorem lookupNat_insertChildIndex :
    ∀ (m : List (Nat × List Nat)) (p i q : Nat),
      List.Pairwise (fun a b => a.1 < b.1) m →
      lookupNat (insertChildIndex m p i) q =
        if q = p then lookupNat m q ++ [i] else lookupNat m q
  | [], p, i, q, _ => by
    by_cases h : q = p
    · subst h; simp [insertChildIndex, lookupNat]
    · have h' : ¬ p = q := fun hpq => h hpq.symm
      simp [insertChildIndex, lookupNat, h, h']
  | (k, v) :: rest, p, i, q, hm => by
    rw [List.pairwise_cons] at hm
    obtain ⟨hk, hrest⟩ := hm
    rcases Nat.lt_trichotomy p k with hpk | hpk | hpk
    · have hne : ¬ p = k := by omega
      simp only [insertChildIndex, if_neg hne, if_pos hpk]
      by_cases hq : q = p
      · subst hq
        have h3 : ¬ k = q := by omega
        have hrq : lookupNat rest q = [] := by
          refine lookupNat_eq_nil_of_lt rest q (fun a ha => ?_)
          have h5 : k < a.1 := hk a ha
          omega
        simp [lookupNat, h3, hrq]
      · have hpq : ¬ p = q := fun h => hq h.symm
        simp [lookupNat, hpq, hq]
    · subst hpk
      simp only [insertChildIndex, if_pos rfl]
      by_cases hq : p = q
      · subst hq
        simp [lookupNat]
      · have hqp : ¬ q = p := fun h => hq h.symm
        simp [lookupNat, hq, hqp]
    · have hne : ¬ p = k := by omega
      have hne2 : ¬ p < k := by omega
      simp only [insertChildIndex, if_neg hne, if_neg hne2]
      by_cases hq : k = q
      · subst hq
        have hqp : ¬ k = p := by omega
        simp [lookupNat, hqp]
      · simp only [lookupNat, if_neg hq]
        exact lookupNat_insertChildIndex rest p i q hrest

theorem buildMaps_charn :
    ∀ (l : List RegionRecordBackend) (n : Nat) (roots : List Nat)
      (m : List (Nat × List Nat)),
      List.Pairwise (fun a b => a.1 < b.1) m →
      (buildMaps n l (roots, m)).1 = roots ++ rootsSpec n l ∧
      (∀ p, lookupNat (buildMaps n l (roots, m)).2 p = lookupNat m p ++ childrenSpec p n l)
  | [], n, roots, m, _ => by simp [buildMaps, rootsSpec, childrenSpec]
  | rb :: rest, n, roots, m, hm => by
    cases hp : rb.parent with
    | some p0 =>
      have hrec :=
        buildMaps_charn rest (n + 1) roots (insertChildIndex m p0 n)
          (keysSorted_insertChildIndex m p0 n hm)
      refine ⟨?_, ?_⟩
      · simp only [buildMaps, hp]
        rw [hrec.1]
        simp [rootsSpec, hp]
      · intro p
        simp only [buildMaps, hp]
        rw [hrec.2 p, lookupNat_insertChildIndex m p0 n p hm]
        by_cases hq : p = p0
        · subst hq
          simp [childrenSpec, hp]
        · have hq2 : ¬ p0 = p := fun h => hq h.symm
          simp [childrenSpec, hp, hq, hq2]
    | none =>
      have hrec := buildMaps_charn rest (n + 1) (roots ++ [n]) m hm
      refine ⟨?_, ?_⟩
      · simp only [buildMaps, hp]
        rw [hrec.1]
        simp [rootsSpec, hp]
      · intro p
        simp only [buildMaps, hp]
        rw [hrec.2 p]
        simp [childrenSpec, hp]

/-! ### Membership and ordering of the spec-side index lists -/

theorem mem_childrenSpec :
    ∀ (l : List RegionRecordBackend) (n p j : Nat),
      j ∈ childrenSpec p n l ↔
        n ≤ j ∧ ∃ rb, l[j - n]? = some rb ∧ rb.parent = some p
  | [], n, p, j => by simp [childrenSpec]
  | rb :: rest, n, p, j => by
    have hrec := mem_childrenSpec rest (n + 1) p j
    by_cases hp : rb.parent = some p
    · simp only [childrenSpec, if_pos hp, List.mem_append, List.mem_singleton, hrec]
      constructor
      · rintro (rfl | ⟨hnj, rb', hget, hpar⟩)
        · exact ⟨le_refl _, rb, by simp, hp⟩
        · refine ⟨by omega, rb', ?_, hpar⟩
          have hd : j - n = (j - (n + 1)) + 1 := by omega
          rw [hd, List.getElem?_cons_succ]
          exact hget
      · rintro ⟨hnj, rb', hget, hpar⟩
        by_cases hj : j = n
        · left; exact hj
        · right
          have hd : j - n = (j - (n + 1)) + 1 := by omega
          rw [hd, List.getElem?_cons_succ] at hget
          exact ⟨by omega, rb', hget, hpar⟩
    · simp only [childrenSpec, if_neg hp, List.nil_append, hrec]
      constructor
      · rintro ⟨hnj, rb', hget, hpar⟩
        refine ⟨by omega, rb', ?_, hpar⟩
        have hd : j - n = (j - (n + 1)) + 1 := by omega
        rw [hd, List.getElem?_cons_succ]
        exact hget
      · rintro ⟨hnj, rb', hget, hpar⟩
        by_cases hj : j = n
        · subst hj
          simp only [Nat.sub_self, List.getElem?_cons_zero, Option.some.injEq] at hget
          subst hget
          exact absurd hpar hp
        · have hd : j - n = (j - (n + 1)) + 1 := by omega
          rw [hd, List.getElem?_cons_succ] at hget
          exact ⟨by omega, rb', hget, hpar⟩

theorem mem_rootsSpec :
    ∀ (l : List RegionRecordBackend) (n j : Nat),
      j ∈ rootsSpec n l ↔
        n ≤ j ∧ ∃ rb, l[j - n]? = some rb ∧ rb.parent = none
  | [], n, j => by simp [rootsSpec]
  | rb :: rest, n, j => by
    have hrec := mem_rootsSpec rest (n + 1) j
    by_cases hp : rb.parent = none
    · simp only [rootsSpec, if_pos hp, List.mem_append, List.mem_singleton, hrec]
      constructor
      · rintro (rfl | ⟨hnj, rb', hget, hpar⟩)
        · exact ⟨le_refl _, rb, by simp, hp⟩
        · refine ⟨by omega, rb', ?_, hpar⟩
          have hd : j - n = (j - (n + 1)) + 1 := by omega
          rw [hd, List.getElem?_cons_succ]
          exact hget
      · rintro ⟨hnj, rb', hget, hpar⟩
        by_cases hj : j = n
        · left; exact hj
        · right
          have hd : j - n = (j - (n + 1)) + 1 := by omega
          rw [hd, List.getElem?_cons_succ] at hget
          exact ⟨by omega, rb', hget, hpar⟩
    · simp only [rootsSpec, if_neg hp, List.nil_append, hrec]
      constructor
      · rintro ⟨hnj, rb', hget, hpar⟩
        refine ⟨by omega, rb', ?_, hpar⟩
        have hd : j - n = (j - (n + 1)) + 1 := by omega
        rw [hd, List.getElem?_cons_succ]
        exact hget
      · rintro ⟨hnj, rb', hget, hpar⟩
        by_cases hj : j = n
        · subst hj
          simp only [Nat.sub_self, List.getElem?_cons_zero, Option.some.injEq] at hget
          subst hget
          exact absurd hpar hp
        · have hd : j - n = (j - (n + 1)) + 1 := by omega
          rw [hd, List.getElem?_cons_succ] at hget
          exact ⟨by omega, rb', hget, hpar⟩

theorem childrenSpec_lower :
    ∀ (l : List RegionRecordBackend) (n p j : Nat), j ∈ childrenSpec p n l → n ≤ j := by
  intro l n p j hj
  exact ((mem_childrenSpec l n p j).mp hj).1

theorem childrenSpec_upper :
    ∀ (l : List RegionRecordBackend) (n p j : Nat), j ∈ childrenSpec p n l → j < n + l.length := by
  intro l n p j hj
  obtain ⟨hnj, rb, hget, -⟩ := (mem_childrenSpec l n p j).mp hj
  obtain ⟨hlt, -⟩ := List.getElem?_eq_some.mp hget
  omega

theorem childrenSpec_sorted :
    ∀ (l : List RegionRecordBackend) (n p : Nat),
      List.Pairwise (· < ·) (childrenSpec p n l)
  | [], _, _ => by simp [childrenSpec]
  | rb :: rest, n, p => by
    have hrec := childrenSpec_sorted rest (n + 1) p
    by_cases hp : rb.parent = some p
    · simp only [childrenSpec, if_pos hp]
      refine List.pairwise_append.mpr ⟨by simp, hrec, ?_⟩
      intro a ha b hb
      have ha' : a = n := List.mem_singleton.mp ha
      have hb' := childrenSpec_lower rest (n + 1) p b hb
      omega
    · simpa [childrenSpec, hp] using hrec

theorem rootsSpec_lower :
    ∀ (l : List RegionRecordBackend) (n j : Nat), j ∈ rootsSpec n l → n ≤ j := by
  intro l n j hj
  exact ((mem_rootsSpec l n j).mp hj).1

theorem rootsSpec_upper :
    ∀ (l : List RegionRecordBackend) (n j : Nat), j ∈ rootsSpec n l → j < n + l.length := by
  intro l n j hj
  obtain ⟨hnj, rb, hget, -⟩ := (mem_rootsSpec l n j).mp hj
  obtain ⟨hlt, -⟩ := List.getElem?_eq_some.mp hget
  omega

theorem rootsSpec_sorted :
    ∀ (l : List RegionRecordBackend) (n : Nat),
      List.Pairwise (· < ·) (rootsSpec n l)
  | [], _ => by simp [rootsSpec]
  | rb :: rest, n => by
    have hrec := rootsSpec_sorted rest (n + 1)
    by_cases hp : rb.parent = none
    · simp only [rootsSpec, if_pos hp]
      refine List.pairwise_append.mpr ⟨by simp, hrec, ?_⟩
      intro a ha b hb
      have ha' : a = n := List.mem_singleton.mp ha
      have hb' := rootsSpec_lower rest (n + 1) b hb
      omega
    · simpa [rootsSpec, hp] using hrec

/-! ### Bridges between the decidable well-formedness checks and their meaning -/

theorem parentsWFb_iff :
    ∀ (l : List RegionRecordBackend) (n : Nat),
      parentsWFb n l = true ↔
        ∀ (j : Nat) (rb : RegionRecordBackend), l[j]? = some rb →
          ∀ p, rb.parent = some p → p < n + j
  | [], n => by simp [parentsWFb]
  | rb :: rest, n => by
    have hrec := parentsWFb_iff rest (n + 1)
    simp only [parentsWFb, Bool.and_eq_true, hrec]
    constructor
    · rintro ⟨h1, h2⟩ j rb' hget p hp
      cases j with
      | zero =>
        simp only [List.getElem?_cons_zero, Option.some.injEq] at hget
        subst hget
        rw [hp] at h1
        simp only [decide_eq_true_eq] at h1
        omega
      | succ j' =>
        rw [List.getElem?_cons_succ] at hget
        have := h2 j' rb' hget p hp
        omega
    · intro h
      refine ⟨?_, ?_⟩
      · cases hp : rb.parent with
        | none => rfl
        | some p =>
          simp only [decide_eq_true_eq]
          have := h 0 rb (by simp) p hp
          omega
      · intro j rb' hget p hp
        have := h (j + 1) rb' (by rw [List.getElem?_cons_succ]; exact hget) p hp
        omega

theorem endsPresentb_iff (l : List RegionRecordBackend) :
    endsPresentb l = true ↔ ∀ rb ∈ l, rb.end_.isSome = true := by
  simp [endsPresentb, List.all_eq_true]

/-! ### The Region order: transitivity, trichotomy, irreflexivity -/

theorem regionLt_trans {a b c : Region} (h1 : Region.lt a b) (h2 : Region.lt b c) :
    Region.lt a c := by
  unfold Region.lt at h1 h2 ⊢
  rcases h1 with h1 | ⟨e1, h1⟩
  · rcases h2 with h2 | ⟨e2, h2⟩
    · exact Or.inl (lt_trans h1 h2)
    · left; rw [← e2]; exact h1
  · rcases h2 with h2 | ⟨e2, h2⟩
    · left; rw [e1]; exact h2
    · refine Or.inr ⟨e1.trans e2, ?_⟩
      rcases h1 with f1 | ⟨g1, l1⟩
      · rcases h2 with f2 | ⟨g2, l2⟩
        · exact Or.inl (lt_trans f1 f2)
        · left; rw [← g2]; exact f1
      · rcases h2 with f2 | ⟨g2, l2⟩
        · left; rw [g1]; exact f2
        · exact Or.inr ⟨g1.trans g2, lt_trans l1 l2⟩

theorem regionLt_trichotomyR (a b : Region) : Region.lt a b ∨ a = b ∨ Region.lt b a := by
  rcases lt_trichotomy a.name b.name with h | h | h
  · exact Or.inl (Or.inl h)
  · rcases lt_trichotomy a.file b.file with h2 | h2 | h2
    · exact Or.inl (Or.inr ⟨h, Or.inl h2⟩)
    · rcases lt_trichotomy a.line b.line with h3 | h3 | h3
      · exact Or.inl (Or.inr ⟨h, Or.inr ⟨h2, h3⟩⟩)
      · right; left
        cases a; cases b
        simp_all
      · exact Or.inr (Or.inr (Or.inr ⟨h.symm, Or.inr ⟨h2.symm, h3⟩⟩))
    · exact Or.inr (Or.inr (Or.inr ⟨h.symm, Or.inl h2⟩))
  · exact Or.inr (Or.inr (Or.inl h))

theorem regionLt_irrefl (a : Region) : ¬ Region.lt a a := by
  unfold Region.lt
  rintro (h | ⟨-, h | ⟨-, h⟩⟩)
  · exact lt_irrefl _ h
  · exact lt_irrefl _ h
  · exact lt_irrefl _ h

theorem regionLt_asymm {a b : Region} (h : Region.lt a b) : ¬ Region.lt b a :=
  fun h' => regionLt_irrefl a (regionLt_trans h h')

theorem regionLt_ne {a b : Region} (h : Region.lt a b) : ¬ a = b :=
  fun h' => regionLt_irrefl a (h' ▸ h)

/-! ### Lemmas about the regions map (the `BTreeMap<Rc<Region>, Vec<RegionExecution>>`) -/

theorem keys_mem_insertRegionExec :
    ∀ (m : List (Region × List RegionExecution)) (r : Region) (e : RegionExecution)
      (b : Region × List RegionExecution),
      b ∈ insertRegionExec m r e → b.1 = r ∨ b.1 ∈ m.map Prod.fst
  | [], r, e, b, hb => by
    simp only [insertRegionExec, List.mem_singleton] at hb
    subst hb; simp
  | (k, v) :: rest, r, e, b, hb => by
    simp only [insertRegionExec] at hb
    split_ifs at hb with h1 h2
    · rcases List.mem_cons.mp hb with h | h
      · subst h; right; simp [h1]
      · right; simp only [List.map_cons, List.mem_cons]
        right; exact List.mem_map_of_mem Prod.fst h
    · rcases List.mem_cons.mp hb with h | h
      · subst h; left; rfl
      · rcases List.mem_cons.mp h with h' | h'
        · subst h'; right; simp
        · right; simp only [List.map_cons, List.mem_cons]
          right; exact List.mem_map_of_mem Prod.fst h'
    · rcases List.mem_cons.mp hb with h | h
      · subst h; right; simp
      · rcases keys_mem_insertRegionExec rest r e b h with h' | h'
        · left; exact h'
        · right; simp only [List.map_cons, List.mem_cons]; right; exact h'

theorem keysSorted_insertRegionExec :
    ∀ (m : List (Region × List RegionExecution)) (r : Region) (e : RegionExecution),
      List.Pairwise (fun a b => Region.lt a.1 b.1) m →
      List.Pairwise (fun a b => Region.lt a.1 b.1) (insertRegionExec m r e)
  | [], r, e, _ => by simp [insertRegionExec]
  | (k, v) :: rest, r, e, hm => by
    rw [List.pairwise_cons] at hm
    obtain ⟨hk, hrest⟩ := hm
    simp only [insertRegionExec]
    split_ifs with h1 h2
    · exact List.pairwise_cons.mpr ⟨hk, hrest⟩
    · refine List.pairwise_cons.mpr ⟨?_, List.pairwise_cons.mpr ⟨hk, hrest⟩⟩
      intro b hb
      rcases List.mem_cons.mp hb with h | h
      · subst h; exact h2
      · exact regionLt_trans h2 (hk b h)
    · have hkr : Region.lt k r := by
        rcases regionLt_trichotomyR r k with h | h | h
        · exact absurd h h2
        · exact absurd h h1
        · exact h
      refine List.pairwise_cons.mpr ⟨?_, keysSorted_insertRegionExec rest r e hrest⟩
      intro b hb
      rcases keys_mem_insertRegionExec rest r e b hb with h | h
      · rw [h]; exact hkr
      · obtain ⟨a, ha, hab⟩ := List.mem_map.mp h
        rw [← hab]; exact hk a ha

theorem lookupRegion_eq_nil_of_lt :
    ∀ (m : List (Region × List RegionExecution)) (q : Region),
      (∀ a ∈ m, Region.lt q a.1) → lookupRegion m q = []
  | [], _, _ => rfl
  | (k, v) :: rest, q, h => by
    have hk : Region.lt q k := h (k, v) (List.mem_cons_self _ _)
    have hne : ¬ k = q := fun h' => regionLt_ne hk h'.symm
    simp only [lookupRegion, if_neg hne]
    exact lookupRegion_eq_nil_of_lt rest q (fun a ha => h a (List.mem_cons_of_mem _ ha))

theorem lookupRegion_insertRegionExec :
    ∀ (m : List (Region × List RegionExecution)) (r : Region) (e : RegionExecution) (q : Region),
      List.Pairwise (fun a b => Region.lt a.1 b.1) m →
      lookupRegion (insertRegionExec m r e) q =
        if q = r then lookupRegion m q ++ [e] else lookupRegion m q
  | [], r, e, q, _ => by
    by_cases h : q = r
    · subst h; simp [insertRegionExec, lookupRegion]
    · have h' : ¬ r = q := fun h'' => h h''.symm
      simp [insertRegionExec, lookupRegion, h, h']
  | (k, v) :: rest, r, e, q, hm => by
    rw [List.pairwise_cons] at hm
    obtain ⟨hk, hrest⟩ := hm
    rcases regionLt_trichotomyR r k with hrk | hrk | hrk
    · have hne : ¬ r = k := regionLt_ne hrk
      simp only [insertRegionExec, if_neg hne, if_pos hrk]
      by_cases hq : q = r
      · subst hq
        have h3 : ¬ k = q := fun h' => regionLt_ne hrk h'.symm
        have hrq : lookupRegion rest q = [] := by
          refine lookupRegion_eq_nil_of_lt rest q (fun a ha => ?_)
          exact regionLt_trans hrk (hk a ha)
        simp [lookupRegion, h3, hrq]
      · have hpq : ¬ r = q := fun h' => hq h'.symm
        simp [lookupRegion, hpq, hq]
    · subst hrk
      simp only [insertRegionExec, if_pos rfl]
      by_cases hq : r = q
      · subst hq
        simp [lookupRegion]
      · have hqp : ¬ q = r := fun h' => hq h'.symm
        simp [lookupRegion, hq, hqp]
    · have hne : ¬ r = k := fun h' => regionLt_ne hrk h'.symm
      have hne2 : ¬ Region.lt r k := regionLt_asymm hrk
      simp only [insertRegionExec, if_neg hne, if_neg hne2]
      by_cases hq : k = q
      · subst hq
        have hqp : ¬ k = r := fun h' => regionLt_ne hrk h'
        simp [lookupRegion, hqp]
      · simp only [lookupRegion, if_neg hq]
        exact lookupRegion_insertRegionExec rest r e q hrest


theorem mapCoherent_insertRegionExec :
    ∀ (m : List (Region × List RegionExecution)) (r : Region) (e : RegionExecution),
      MapCoherent m → RegionExecution.region e = r →
      MapCoherent (insertRegionExec m r e)
  | [], r, e, _, he => by
    intro kv hkv e' he'
    simp only [insertRegionExec, List.mem_singleton] at hkv
    subst hkv
    simp only [List.mem_singleton] at he'
    subst he'; exact he
  | (k, v) :: rest, r, e, hm, he => by
    intro kv hkv e' he'
    simp only [insertRegionExec] at hkv
    split_ifs at hkv with h1 h2
    · rcases List.mem_cons.mp hkv with h | h
      · subst h
        simp only [List.mem_append, List.mem_singleton] at he'
        rcases he' with h' | h'
        · exact hm (k, v) (List.mem_cons_self _ _) e' h'
        · subst h'; rw [he, h1]
      · exact hm kv (List.mem_cons_of_mem _ h) e' he'
    · rcases List.mem_cons.mp hkv with h | h
      · subst h
        simp only [List.mem_singleton] at he'
        subst he'; exact he
      · exact hm kv h e' he'
    · rcases List.mem_cons.mp hkv with h | h
      · subst h
        exact hm (k, v) (List.mem_cons_self _ _) e' he'
      · exact mapCoherent_insertRegionExec rest r e
          (fun kv' hkv' => hm kv' (List.mem_cons_of_mem _ hkv')) he kv h e' he'

theorem insertAllExecs_append (l1 l2 : List (Region × RegionExecution)) :
    ∀ m, insertAllExecs m (l1 ++ l2) = insertAllExecs (insertAllExecs m l1) l2 := by
  induction l1 with
  | nil => intro m; rfl
  | cons pr rest ih =>
    intro m
    obtain ⟨r, e⟩ := pr
    simp only [List.cons_append, insertAllExecs]
    exact ih (insertRegionExec m r e)

theorem insertAllExecs_charn :
    ∀ (l : List (Region × RegionExecution)) (m : List (Region × List RegionExecution)),
      List.Pairwise (fun a b => Region.lt a.1 b.1) m →
      List.Pairwise (fun a b => Region.lt a.1 b.1) (insertAllExecs m l) ∧
      ∀ q, lookupRegion (insertAllExecs m l) q =
        lookupRegion m q ++ (l.filter (fun pr => pr.1 == q)).map Prod.snd
  | [], m, hm => by simp [insertAllExecs, hm]
  | (r, e) :: rest, m, hm => by
    have hm' := keysSorted_insertRegionExec m r e hm
    have hrec := insertAllExecs_charn rest (insertRegionExec m r e) hm'
    refine ⟨hrec.1, ?_⟩
    intro q
    simp only [insertAllExecs]
    rw [hrec.2 q, lookupRegion_insertRegionExec m r e q hm]
    by_cases hq : q = r
    · subst hq
      simp [List.filter_cons]
    · have hq2 : ¬ (r == q) = true := by
        simp only [beq_iff_eq]
        exact fun h' => hq h'.symm
      simp [List.filter_cons, hq, hq2]

theorem mapCoherent_insertAllExecs :
    ∀ (l : List (Region × RegionExecution)) (m : List (Region × List RegionExecution)),
      MapCoherent m → (∀ pr ∈ l, RegionExecution.region pr.2 = pr.1) →
      MapCoherent (insertAllExecs m l)
  | [], m, hm, _ => hm
  | (r, e) :: rest, m, hm, hl => by
    simp only [insertAllExecs]
    refine mapCoherent_insertAllExecs rest _ ?_ ?_
    · exact mapCoherent_insertRegionExec m r e hm (hl (r, e) (List.mem_cons_self _ _))
    · exact fun pr hpr => hl pr (List.mem_cons_of_mem _ hpr)

mutual
theorem postPairs_coherent :
    ∀ (re : RegionExecution), ∀ pr ∈ postPairs re, RegionExecution.region pr.2 = pr.1
  | .mk children r s e => by
    intro pr hpr
    simp only [postPairs, List.mem_append, List.mem_singleton] at hpr
    rcases hpr with h | h
    · exact postPairsList_coherent children pr h
    · subst h; rfl
theorem postPairsList_coherent :
    ∀ (l : List RegionExecution), ∀ pr ∈ postPairsList l, RegionExecution.region pr.2 = pr.1
  | [] => by intro pr hpr; simp [postPairsList] at hpr
  | c :: cs => by
    intro pr hpr
    simp only [postPairsList, List.mem_append] at hpr
    rcases hpr with h | h
    · exact postPairs_coherent c pr h
    · exact postPairsList_coherent cs pr h
end

/-! ### The main generation lemma

For a well-formed flat list, `generateOne` with sufficient fuel succeeds, its
result represents the activation faithfully (`Represents`), and its effect on
the regions map is exactly the insertion of the subtree's registration pairs
in depth-first post-order. -/

theorem genMain (bs : List RegionRecordBackend) (cmap : List (Nat × List Nat))
    (hpar : ∀ (j : Nat) (rb : RegionRecordBackend), bs[j]? = some rb →
      ∀ p, rb.parent = some p → p < j)
    (hend : ∀ rb ∈ bs, rb.end_.isSome = true)
    (hc : ∀ p, lookupNat cmap p = childrenSpec p 0 bs) :
    ∀ fuel : Nat,
      (∀ (i : Nat) (regions : List (Region × List RegionExecution)),
        i < bs.length → bs.length - i ≤ fuel →
        ∃ re, generateOne bs cmap fuel i regions =
            some (re, insertAllExecs regions (postPairs re)) ∧
          Represents bs i re) ∧
      (∀ (l : List Nat) (regions : List (Region × List RegionExecution)),
        (∀ j ∈ l, j < bs.length ∧ bs.length - j ≤ fuel) →
        ∃ res, genChildren (generateOne bs cmap fuel) l regions =
            some (res, insertAllExecs regions (postPairsList res)) ∧
          List.Forall₂ (Represents bs) l res) := by
  intro fuel
  induction fuel with
  | zero =>
    constructor
    · intro i regions hi hfuel
      omega
    · intro l regions hl
      cases l with
      | nil =>
        exact ⟨[], by simp [genChildren, insertAllExecs, postPairsList], List.Forall₂.nil⟩
      | cons j rest =>
        have := hl j (List.mem_cons_self _ _)
        omega
  | succ fuel ih =>
    have hone : ∀ (i : Nat) (regions : List (Region × List RegionExecution)),
        i < bs.length → bs.length - i ≤ fuel + 1 →
        ∃ re, generateOne bs cmap (fuel + 1) i regions =
            some (re, insertAllExecs regions (postPairs re)) ∧
          Represents bs i re := by
      intro i regions hi hfuel
      have hrb : bs[i]? = some bs[i] := List.getElem?_eq_getElem hi
      have hcl : ∀ j ∈ lookupNat cmap i, j < bs.length ∧ bs.length - j ≤ fuel := by
        intro j hj
        rw [hc i] at hj
        obtain ⟨-, rbj, hgetj, hparj⟩ := (mem_childrenSpec bs 0 i j).mp hj
        have hj2 : bs[j]? = some rbj := by simpa using hgetj
        have hlt : i < j := hpar j rbj hj2 i hparj
        obtain ⟨hjlen, -⟩ := List.getElem?_eq_some.mp hj2
        exact ⟨hjlen, by omega⟩
      obtain ⟨children, hgen, hrepr⟩ := ih.2 (lookupNat cmap i) regions hcl
      have hendi : (bs[i]).end_.isSome = true := hend bs[i] (List.getElem_mem hi)
      obtain ⟨e, he⟩ := Option.isSome_iff_exists.mp hendi
      refine ⟨RegionExecution.mk children (Region.fromBackend bs[i]) (bs[i]).start e, ?_, ?_⟩
      · simp only [generateOne, hrb, hgen, he]
        rw [postPairs, insertAllExecs_append]
        rfl
      · refine Represents.mk i bs[i] children e hrb he ?_
        rw [hc i] at hrepr
        exact hrepr
    refine ⟨hone, ?_⟩
    intro l
    induction l with
    | nil =>
      intro regions hl
      exact ⟨[], by simp [genChildren, insertAllExecs, postPairsList], List.Forall₂.nil⟩
    | cons j rest ihl =>
      intro regions hl
      obtain ⟨hjlen, hjfuel⟩ := hl j (List.mem_cons_self _ _)
      obtain ⟨re, hgen1, hrep1⟩ := hone j regions hjlen hjfuel
      obtain ⟨res, hgen2, hrep2⟩ :=
        ihl (insertAllExecs regions (postPairs re))
          (fun j' hj' => hl j' (List.mem_cons_of_mem _ hj'))
      refine ⟨re :: res, ?_, List.Forall₂.cons hrep1 hrep2⟩
      simp only [genChildren, hgen1, hgen2]
      rw [postPairsList, insertAllExecs_append]

/-- Characterization of `RawThreadProfile::profile` on finalized input: it
succeeds, the returned roots represent exactly the parent-free activations in
increasing index order, and the regions map is the post-order registration of
the whole forest into an empty map. -/
theorem profile_charn (rp : RawThreadProfile)
    (hpar : parentsWFb 0 rp.region_backends = true)
    (hend : endsPresentb rp.region_backends = true) :
    ∃ roots,
      rp.profile = some
        { thread_id := rp.thread_id,
          regions := insertAllExecs [] (postPairsList roots),
          root_region_executions := roots } ∧
      List.Forall₂ (Represents rp.region_backends) (rootsSpec 0 rp.region_backends) roots := by
  have hpar' : ∀ (j : Nat) (rb : RegionRecordBackend), rp.region_backends[j]? = some rb →
      ∀ p, rb.parent = some p → p < j := by
    intro j rb h p hp
    have := (parentsWFb_iff rp.region_backends 0).mp hpar j rb h p hp
    omega
  have hend' : ∀ rb ∈ rp.region_backends, rb.end_.isSome = true :=
    (endsPresentb_iff rp.region_backends).mp hend
  have hbm := buildMaps_charn rp.region_backends 0 [] [] (by simp)
  have hc : ∀ p, lookupNat (buildMaps 0 rp.region_backends ([], [])).2 p =
      childrenSpec p 0 rp.region_backends := by
    intro p; rw [hbm.2 p]; simp [lookupNat]
  have hroots1 : (buildMaps 0 rp.region_backends ([], [])).1 =
      rootsSpec 0 rp.region_backends := by
    rw [hbm.1]; simp
  have hmem : ∀ j ∈ rootsSpec 0 rp.region_backends,
      j < rp.region_backends.length ∧
      rp.region_backends.length - j ≤ rp.region_backends.length := by
    intro j hj
    have := rootsSpec_upper rp.region_backends 0 j hj
    omega
  obtain ⟨roots, hgen, hrep⟩ :=
    (genMain rp.region_backends (buildMaps 0 rp.region_backends ([], [])).2 hpar' hend' hc
      rp.region_backends.length).2
      (rootsSpec 0 rp.region_backends) [] hmem
  refine ⟨roots, ?_, hrep⟩
  unfold RawThreadProfile.profile
  simp only []
  rw [hroots1, hgen]

/-! ### Reachability along child links, and failure on a missing end -/


theorem genChildren_mem_success
    (g : Nat → List (Region × List RegionExecution) →
      Option (RegionExecution × List (Region × List RegionExecution))) :
    ∀ (l : List Nat) (regions : List (Region × List RegionExecution))
      (out : List RegionExecution × List (Region × List RegionExecution)),
      genChildren g l regions = some out →
      ∀ j ∈ l, ∃ regions2 out2, g j regions2 = some out2
  | [], regions, out, h, j, hj => by simp at hj
  | i :: rest, regions, out, h, j, hj => by
    simp only [genChildren] at h
    split at h
    · simp at h
    · rename_i re r1 hgi
      rcases List.mem_cons.mp hj with rfl | hj'
      · exact ⟨regions, (re, r1), hgi⟩
      · split at h
        · simp at h
        · rename_i res r2 hgr
          exact genChildren_mem_success g rest r1 (res, r2) hgr j hj'

theorem generateOne_success_end (bs : List RegionRecordBackend)
    (cmap : List (Nat × List Nat)) :
    ∀ (fuel i : Nat) (regions : List (Region × List RegionExecution))
      (out : RegionExecution × List (Region × List RegionExecution)),
      generateOne bs cmap fuel i regions = some out →
      ∃ rb, bs[i]? = some rb ∧ rb.end_.isSome = true := by
  intro fuel i regions out h
  cases fuel with
  | zero => simp [generateOne] at h
  | succ f =>
    simp only [generateOne] at h
    split at h
    · simp at h
    · rename_i rb hrb
      split at h
      · simp at h
      · rename_i children r1 hgc
        split at h
        · simp at h
        · rename_i e he
          exact ⟨rb, hrb, by simp [he]⟩

theorem generateOne_success_child (bs : List RegionRecordBackend)
    (cmap : List (Nat × List Nat)) (f i : Nat)
    (regions : List (Region × List RegionExecution))
    (out : RegionExecution × List (Region × List RegionExecution))
    (h : generateOne bs cmap (f + 1) i regions = some out) :
    ∀ j ∈ lookupNat cmap i, ∃ regions2 out2, generateOne bs cmap f j regions2 = some out2 := by
  simp only [generateOne] at h
  split at h
  · simp at h
  · rename_i rb hrb
    split at h
    · simp at h
    · rename_i children r1 hgc
      exact genChildren_mem_success (generateOne bs cmap f) (lookupNat cmap i) regions
        (children, r1) hgc

theorem reaches_success (bs : List RegionRecordBackend) (cmap : List (Nat × List Nat))
    (hc : ∀ p, lookupNat cmap p = childrenSpec p 0 bs) :
    ∀ {i j : Nat}, ReachesFrom bs i j →
      (∃ fuel regions out, generateOne bs cmap fuel i regions = some out) →
      ∃ fuel regions out, generateOne bs cmap fuel j regions = some out := by
  intro i j hreach
  induction hreach with
  | refl => exact id
  | child hr hmem ihr =>
    intro hsucc
    obtain ⟨fuel, regions, out, hgen⟩ := ihr hsucc
    cases fuel with
    | zero => simp [generateOne] at hgen
    | succ f =>
      obtain ⟨r2, o2, h2⟩ :=
        generateOne_success_child bs cmap f _ regions out hgen _ (by rw [hc]; exact hmem)
      exact ⟨f, r2, o2, h2⟩

theorem all_reachable (bs : List RegionRecordBackend)
    (hpar : ∀ (j : Nat) (rb : RegionRecordBackend), bs[j]? = some rb →
      ∀ p, rb.parent = some p → p < j) :
    ∀ j, j < bs.length → ∃ r ∈ rootsSpec 0 bs, ReachesFrom bs r j := by
  intro j
  induction j using Nat.strong_induction_on with
  | _ j ihj =>
    intro hj
    have hrb : bs[j]? = some bs[j] := List.getElem?_eq_getElem hj
    cases hp : (bs[j]).parent with
    | none =>
      refine ⟨j, ?_, ReachesFrom.refl j⟩
      rw [mem_rootsSpec]
      exact ⟨Nat.zero_le _, bs[j], by simp, hp⟩
    | some p =>
      have hplt : p < j := hpar j bs[j] hrb p hp
      obtain ⟨r, hrmem, hreach⟩ := ihj p hplt (by omega)
      refine ⟨r, hrmem, ReachesFrom.child hreach ?_⟩
      rw [mem_childrenSpec]
      exact ⟨Nat.zero_le _, bs[j], by simp, hp⟩

/-- If reconstruction succeeds and the parent indices are well formed, then
every activation of the input carried an end timestamp. -/
theorem profile_success_ends (rp : RawThreadProfile)
    (hpar : parentsWFb 0 rp.region_backends = true)
    (hsucc : (rp.profile).isSome = true) :
    endsPresentb rp.region_backends = true := by
  have hpar' : ∀ (j : Nat) (rb : RegionRecordBackend), rp.region_backends[j]? = some rb →
      ∀ p, rb.parent = some p → p < j := by
    intro j rb h p hp
    have := (parentsWFb_iff rp.region_backends 0).mp hpar j rb h p hp
    omega
  have hbm := buildMaps_charn rp.region_backends 0 [] [] (by simp)
  have hc : ∀ p, lookupNat (buildMaps 0 rp.region_backends ([], [])).2 p =
      childrenSpec p 0 rp.region_backends := by
    intro p; rw [hbm.2 p]; simp [lookupNat]
  have hroots1 : (buildMaps 0 rp.region_backends ([], [])).1 =
      rootsSpec 0 rp.region_backends := by
    rw [hbm.1]; simp
  unfold RawThreadProfile.profile at hsucc
  simp only [] at hsucc
  cases hgen : genChildren
      (generateOne rp.region_backends (buildMaps 0 rp.region_backends ([], [])).2
        rp.region_backends.length)
      (buildMaps 0 rp.region_backends ([], [])).1 [] with
  | none => rw [hgen] at hsucc; simp at hsucc
  | some out =>
    rw [endsPresentb_iff]
    intro rb hrb
    obtain ⟨j, hj⟩ := List.mem_iff_getElem?.mp hrb
    obtain ⟨hjlen, -⟩ := List.getElem?_eq_some.mp hj
    obtain ⟨r, hrmem, hreach⟩ := all_reachable rp.region_backends hpar' j hjlen
    have hrsucc : ∃ fuel regions out2,
        generateOne rp.region_backends (buildMaps 0 rp.region_backends ([], [])).2
          fuel r regions = some out2 := by
      obtain ⟨r2, o2, h2⟩ :=
        genChildren_mem_success _ _ _ out hgen r (by rw [hroots1] at hgen ⊢; exact hrmem)
      exact ⟨rp.region_backends.length, r2, o2, h2⟩
    obtain ⟨fuel, regions, out2, hgen2⟩ :=
      reaches_success rp.region_backends _ hc hreach hrsucc
    obtain ⟨rb', hrb', hend'⟩ :=
      generateOne_success_end rp.region_backends _ fuel j regions out2 hgen2
    rw [hj] at hrb'
    rw [Option.some.inj hrb']
    exact hend'

/-! ### The exporter emits the pre-order traversal -/

mutual
theorem traverse_eq_preOrder (pid tid : Nat) :
    ∀ re : RegionExecution,
      traverse pid tid re = (preOrderNodes re).map (eventFor pid tid)
  | .mk children r s e => by
    have h := traverseList_eq_preOrder pid tid children
    show eventFor pid tid (RegionExecution.mk children r s e)
          :: traverseList pid tid children =
        eventFor pid tid (RegionExecution.mk children r s e)
          :: (preOrderForest children).map (eventFor pid tid)
    rw [h]
theorem traverseList_eq_preOrder (pid tid : Nat) :
    ∀ l : List RegionExecution,
      traverseList pid tid l = (preOrderForest l).map (eventFor pid tid)
  | [] => by simp [traverseList, preOrderForest]
  | c :: cs => by
    simp only [traverseList, preOrderForest, List.map_append]
    rw [traverse_eq_preOrder pid tid c, traverseList_eq_preOrder pid tid cs]
end

/-! ### The state invariant of the recording engine -/


theorem stateInv_initState (tid : Nat) : StateInv (initState tid) := by
  refine ⟨?_, ?_⟩
  · intro rp hrp
    simp [initState] at hrp
  · simp [TlsInv, initState, RawThreadProfile.new, parentsWFb]

theorem parentsWFb_append_one :
    ∀ (l : List RegionRecordBackend) (n : Nat) (rb : RegionRecordBackend),
      parentsWFb n (l ++ [rb]) =
        (parentsWFb n l &&
          match rb.parent with
          | none => true
          | some p => decide (p < n + l.length))
  | [], n, rb => by simp [parentsWFb]
  | rb0 :: rest, n, rb => by
    have h1 := parentsWFb_append_one rest (n + 1) rb
    have h2 : n + 1 + rest.length = n + (rest.length + 1) := by omega
    simp only [List.cons_append, parentsWFb, List.append_eq, h1, List.length_cons, h2,
      Bool.and_assoc]

theorem parentsWFb_set :
    ∀ (l : List RegionRecordBackend) (n i : Nat) (rb rb' : RegionRecordBackend),
      l[i]? = some rb → rb'.parent = rb.parent →
      parentsWFb n (l.set i rb') = parentsWFb n l
  | [], n, i, rb, rb', h, _ => by simp at h
  | rb0 :: rest, n, i, rb, rb', h, hp => by
    cases i with
    | zero =>
      simp only [List.getElem?_cons_zero, Option.some.injEq] at h
      subst h
      simp only [List.set_cons_zero, parentsWFb, hp]
    | succ i' =>
      rw [List.getElem?_cons_succ] at h
      simp only [List.set_cons_succ, parentsWFb,
        parentsWFb_set rest (n + 1) i' rb rb' h hp]

theorem endsPresentb_iff_getElem (l : List RegionRecordBackend) :
    endsPresentb l = true ↔
      ∀ (j : Nat) (rb : RegionRecordBackend), l[j]? = some rb → rb.end_.isSome = true := by
  rw [endsPresentb_iff]
  constructor
  · intro h j rb hj
    exact h rb (List.getElem?_mem hj)
  · intro h rb hrb
    obtain ⟨j, hj⟩ := List.mem_iff_getElem?.mp hrb
    exact h j rb hj


theorem getLast?_if (l : List Nat) :
    (if l.length > 0 then l.getLast? else none) = l.getLast? := by
  cases l with
  | nil => simp
  | cons a rest => simp


/-- Characterization of `RegionRecord::new`: the new activation is appended at
index `length`, its parent is the top of the open-region stack, its start is
the clock value and its end is absent; the new index is pushed on the stack;
the queue is untouched. -/
theorem regionNew_charn (name file : String) (line tid : Nat) (t : Int) (s : SysState) :
    regionNew name file line tid t s =
      { tls :=
          { raw_thread_profile := some (newSession name file line tid t s.tls),
            stack := s.tls.stack ++ [(oldBackends s.tls).length] },
        profiles := s.profiles } := by
  unfold regionNew newSession oldBackends oldTid
  cases hraw : s.tls.raw_thread_profile with
  | none => simp [hraw, getLast?_if, RawThreadProfile.new]
  | some rp => simp [hraw, getLast?_if]

theorem stateInv_regionNew (name file : String) (line tid : Nat) (t : Int) (s : SysState)
    (hs : StateInv s) : StateInv (regionNew name file line tid t s) := by
  obtain ⟨hq, htl⟩ := hs
  have hF : parentsWFb 0 (oldBackends s.tls) = true ∧
      List.Pairwise (· < ·) s.tls.stack ∧
      (∀ i ∈ s.tls.stack, i < (oldBackends s.tls).length) ∧
      (∀ j ∈ List.range (oldBackends s.tls).length,
        (((oldBackends s.tls).getD j default).end_ = none ↔ j ∈ s.tls.stack)) := by
    unfold TlsInv at htl
    cases hraw : s.tls.raw_thread_profile with
    | none =>
      rw [hraw] at htl
      simp only [oldBackends, hraw]
      simp [htl, parentsWFb]
    | some rp =>
      rw [hraw] at htl
      simp only [oldBackends, hraw]
      exact htl
  obtain ⟨hF1, hF2, hF3, hF4⟩ := hF
  rw [regionNew_charn]
  refine ⟨hq, ?_⟩
  unfold TlsInv
  simp only [newSession]
  refine ⟨?_, ?_, ?_, ?_⟩
  · rw [parentsWFb_append_one]
    cases hl : s.tls.stack.getLast? with
    | none => simp [hF1]
    | some p =>
      have hp : p ∈ s.tls.stack := List.mem_of_getLast?_eq_some hl
      have := hF3 p hp
      simp only [hF1, Bool.true_and]
      simp only [Nat.zero_add]
      simp [this]
  · refine List.pairwise_append.mpr ⟨hF2, by simp, ?_⟩
    intro a ha b hb
    rcases List.mem_singleton.mp hb with rfl
    exact hF3 a ha
  · intro i hi
    rcases List.mem_append.mp hi with h | h
    · have := hF3 i h
      simp only [List.length_append, List.length_cons, List.length_nil]
      omega
    · rcases List.mem_singleton.mp h with rfl
      simp only [List.length_append, List.length_cons, List.length_nil]
      omega
  · intro j hj
    rw [List.mem_range] at hj
    simp only [List.length_append, List.length_cons, List.length_nil] at hj
    by_cases hcase : j < (oldBackends s.tls).length
    · have hget : (oldBackends s.tls ++
          [(⟨name, file, line, s.tls.stack.getLast?, t, none⟩ : RegionRecordBackend)])[j]? =
          (oldBackends s.tls)[j]? := List.getElem?_append_left hcase
      rw [List.getD_eq_getElem?_getD, hget, ← List.getD_eq_getElem?_getD]
      rw [hF4 j (List.mem_range.mpr hcase)]
      constructor
      · intro h; exact List.mem_append_left _ h
      · intro h
        rcases List.mem_append.mp h with h' | h'
        · exact h'
        · rcases List.mem_singleton.mp h' with rfl
          omega
    · have hj2 : j = (oldBackends s.tls).length := by omega
      subst hj2
      have hget : (oldBackends s.tls ++
          [(⟨name, file, line, s.tls.stack.getLast?, t, none⟩ : RegionRecordBackend)])[
            (oldBackends s.tls).length]? =
          some ⟨name, file, line, s.tls.stack.getLast?, t, none⟩ := by
        rw [List.getElem?_append_right (le_refl _)]
        simp
      rw [List.getD_eq_getElem?_getD, hget]
      simp

theorem getD_of_getElem? {l : List RegionRecordBackend} {j : Nat} {rb : RegionRecordBackend}
    (h : l[j]? = some rb) : l.getD j default = rb := by
  simp [List.getD_eq_getElem?_getD, h]


/-- Characterization of `Drop for RegionRecord` on an invariant state with a
non-empty stack: the close sets the end of the activation at the top-of-stack
index — which was previously unset — pops the stack, and pushes the whole
session onto the queue exactly when the stack thereby becomes empty (leaving
the thread-local slot empty); otherwise the queue is untouched. -/
theorem regionDrop_charn (t : Int) (s : SysState) (hs : StateInv s)
    (index : Nat) (hlast : s.tls.stack.getLast? = some index) :
    ∃ rp rb,
      s.tls.raw_thread_profile = some rp ∧
      rp.region_backends[index]? = some rb ∧
      rb.end_ = none ∧
      regionDrop t s =
        (if s.tls.stack.length = 1 then
          some { tls := { raw_thread_profile := none, stack := [] },
                 profiles := s.profiles ++ [closedSession t rp index rb] }
        else
          some { tls := { raw_thread_profile := some (closedSession t rp index rb),
                          stack := s.tls.stack.dropLast },
                 profiles := s.profiles }) := by
  obtain ⟨hq, htl⟩ := hs
  obtain ⟨ys, hys⟩ := List.getLast?_eq_some_iff.mp hlast
  cases hraw : s.tls.raw_thread_profile with
  | none =>
    unfold TlsInv at htl
    rw [hraw] at htl
    rw [htl] at hlast
    simp at hlast
  | some rp =>
    unfold TlsInv at htl
    rw [hraw] at htl
    obtain ⟨hF1, hF2, hF3, hF4⟩ := htl
    have hmem : index ∈ s.tls.stack := List.mem_of_getLast?_eq_some hlast
    have hlt : index < rp.region_backends.length := hF3 index hmem
    have hget : rp.region_backends[index]? = some rp.region_backends[index] :=
      List.getElem?_eq_getElem hlt
    have hend : (rp.region_backends[index]).end_ = none := by
      have h4 := hF4 index (List.mem_range.mpr hlt)
      rw [getD_of_getElem? hget] at h4
      exact h4.mpr hmem
    refine ⟨rp, rp.region_backends[index], rfl, hget, hend, ?_⟩
    unfold regionDrop
    simp only [hlast, hraw, hget]
    have hdl : s.tls.stack.dropLast = ys := by
      rw [hys]; exact List.dropLast_concat
    have hlen : s.tls.stack.length = ys.length + 1 := by
      rw [hys]; simp
    by_cases h1 : s.tls.stack.length = 1
    · have hys0 : ys = [] := by
        rw [hlen] at h1
        exact List.eq_nil_of_length_eq_zero (by omega)
      have hdl0 : s.tls.stack.dropLast.length = 0 := by
        rw [hdl, hys0]; rfl
      rw [if_pos hdl0, if_pos h1]
      simp only [closedSession]
      rw [hdl, hys0]
    · have hdl0 : ¬ s.tls.stack.dropLast.length = 0 := by
        rw [hdl]
        intro h
        rw [hlen] at h1
        omega
      rw [if_neg hdl0, if_neg h1]
      simp only [closedSession]

theorem stateInv_regionDrop (t : Int) (s s' : SysState) (hs : StateInv s)
    (hdrop : regionDrop t s = some s') : StateInv s' := by
  cases hlast : s.tls.stack.getLast? with
  | none =>
    simp only [regionDrop, hlast] at hdrop
    exact absurd hdrop (by simp)
  | some index =>
    obtain ⟨rp, rb, hraw, hget, hend, hchar⟩ := regionDrop_charn t s hs index hlast
    obtain ⟨hq, htl⟩ := hs
    unfold TlsInv at htl
    rw [hraw] at htl
    obtain ⟨hF1, hF2, hF3, hF4⟩ := htl
    obtain ⟨ys, hys⟩ := List.getLast?_eq_some_iff.mp hlast
    have hdl : s.tls.stack.dropLast = ys := by
      rw [hys]; exact List.dropLast_concat
    have hlt : index < rp.region_backends.length := by
      obtain ⟨h, -⟩ := List.getElem?_eq_some.mp hget
      exact h
    have hwf' : parentsWFb 0 (closedSession t rp index rb).region_backends = true := by
      unfold closedSession
      rw [parentsWFb_set rp.region_backends 0 index rb { rb with end_ := some t } hget rfl]
      exact hF1
    have hnotys : index ∉ ys := by
      intro hin
      have : ∀ a ∈ ys, a < index := by
        rw [hys] at hF2
        intro a ha
        exact (List.pairwise_append.mp hF2).2.2 a ha index (List.mem_singleton.mpr rfl)
      have := this index hin
      omega
    rw [hchar] at hdrop
    by_cases h1 : s.tls.stack.length = 1
    · rw [if_pos h1] at hdrop
      have hs' := Option.some.inj hdrop
      subst hs'
      constructor
      · intro rp' hrp'
        rcases List.mem_append.mp hrp' with h | h
        · exact hq rp' h
        · rcases List.mem_singleton.mp h with rfl
          refine ⟨hwf', ?_⟩
          rw [endsPresentb_iff_getElem]
          intro j rb'' hj
          unfold closedSession at hj
          by_cases hji : j = index
          · subst hji
            rw [List.getElem?_set_self hlt] at hj
            rw [← Option.some.inj hj]
            rfl
          · rw [List.getElem?_set_ne (fun h => hji h.symm)] at hj
            have hjlen : j < rp.region_backends.length := by
              obtain ⟨h, -⟩ := List.getElem?_eq_some.mp hj
              exact h
            have h4 := hF4 j (List.mem_range.mpr hjlen)
            rw [getD_of_getElem? hj] at h4
            have hys0 : ys = [] := by
              rw [hys] at h1
              simp at h1
              exact h1
            have hnotin : j ∉ s.tls.stack := by
              rw [hys, hys0]
              simp [hji]
            cases he : rb''.end_ with
            | none => exact absurd (h4.mp he) hnotin
            | some e => rfl
      · unfold TlsInv
        rfl
    · rw [if_neg h1] at hdrop
      have hs' := Option.some.inj hdrop
      subst hs'
      refine ⟨hq, ?_⟩
      unfold TlsInv
      refine ⟨hwf', ?_, ?_, ?_⟩
      · exact hF2.sublist (List.dropLast_sublist _)
      · intro i hi
        have hmem : i ∈ s.tls.stack := (List.dropLast_sublist _).subset hi
        have := hF3 i hmem
        unfold closedSession
        simp only [List.length_set]
        omega
      · intro j hj
        simp only [closedSession, List.length_set] at hj ⊢
        rw [List.mem_range] at hj
        by_cases hji : j = index
        · subst hji
          have hgd : (rp.region_backends.set j { rb with end_ := some t }).getD j default =
              { rb with end_ := some t } := by
            refine getD_of_getElem? ?_
            rw [List.getElem?_set_self hlt]
          rw [hgd, hdl]
          constructor
          · intro h; exact absurd h (by simp)
          · intro h; exact absurd h hnotys
        · have hgd : (rp.region_backends.set index { rb with end_ := some t })[j]? =
              rp.region_backends[j]? := List.getElem?_set_ne (fun h => hji h.symm)
          rw [List.getD_eq_getElem?_getD, hgd, ← List.getD_eq_getElem?_getD]
          have h4 := hF4 j (List.mem_range.mpr hj)
          rw [h4, hdl, hys]
          simp [hji]

theorem stateInv_runOps (tid : Nat) :
    ∀ (ops : List Op) (s s' : SysState), StateInv s → runOps tid ops s = some s' → StateInv s'
  | [], s, s', hs, h => by
    simp only [runOps] at h
    rw [← Option.some.inj h]
    exact hs
  | Op.openR n f l t :: rest, s, s', hs, h => by
    simp only [runOps] at h
    exact stateInv_runOps tid rest _ s' (stateInv_regionNew n f l tid t s hs) h
  | Op.closeR t :: rest, s, s', hs, h => by
    simp only [runOps] at h
    split at h
    · simp at h
    · rename_i s1 hdrop
      exact stateInv_runOps tid rest s1 s' (stateInv_regionDrop t s s1 hs hdrop) h


/-! ### The claims -/

/-- C1: for every finalized Raw Thread Profile (all ends present, every parent
index smaller than its owner's), reconstruction succeeds and returns a forest
whose roots represent, in increasing index order, exactly the activations with
`parent = none`, each node's children representing exactly the activations
whose parent is that node's index in increasing (chronological creation)
order, with each node's identity, start and end taken from its record
(`Represents`); both index lists are strictly increasing.  Moreover for region
A opened, then B opened and closed, then A closed, the result is one root
execution for A with exactly one child for B, and A's identity is its recorded
(name, file, line). -/
theorem claim1_reconstruction_forest :
    (∀ rp : RawThreadProfile, finalizedb rp = true →
      ∃ tp, rp.profile = some tp ∧
        List.Forall₂ (Represents rp.region_backends) (rootsSpec 0 rp.region_backends)
          tp.root_region_executions ∧
        List.Pairwise (· < ·) (rootsSpec 0 rp.region_backends) ∧
        (∀ p, List.Pairwise (· < ·) (childrenSpec p 0 rp.region_backends))) ∧
    RawThreadProfile.profile exAB = some
      { thread_id := 3,
        regions :=
          [ (⟨"A", "f", 1⟩,
              [RegionExecution.mk [RegionExecution.mk [] ⟨"B", "f", 2⟩ 10 20] ⟨"A", "f", 1⟩ 0 30]),
            (⟨"B", "f", 2⟩, [RegionExecution.mk [] ⟨"B", "f", 2⟩ 10 20]) ],
        root_region_executions :=
          [RegionExecution.mk [RegionExecution.mk [] ⟨"B", "f", 2⟩ 10 20] ⟨"A", "f", 1⟩ 0 30] } := by
  constructor
  · intro rp hfin
    rw [finalizedb, Bool.and_eq_true] at hfin
    obtain ⟨roots, hprof, hrep⟩ := profile_charn rp hfin.1 hfin.2
    exact ⟨_, hprof, hrep, rootsSpec_sorted _ 0, fun p => childrenSpec_sorted _ 0 p⟩
  · rfl

theorem claim1_reconstruction_forest_witness :
    finalizedb exAB = true ∧
    (∃ tp, RawThreadProfile.profile exAB = some tp ∧
      List.Forall₂ (Represents exAB.region_backends) (rootsSpec 0 exAB.region_backends)
        tp.root_region_executions ∧
      List.Pairwise (· < ·) (rootsSpec 0 exAB.region_backends) ∧
      (∀ p, List.Pairwise (· < ·) (childrenSpec p 0 exAB.region_backends))) :=
  ⟨by decide, claim1_reconstruction_forest.1 exAB (by decide)⟩

/-- C2: for every reconstructed Thread Profile, the exporter emits exactly one
complete-event record per Region Execution, in pre-order (each node before its
descendants, children in forest order), and each record carries the region's
name, phase `"X"`, start and duration converted from nanoseconds to
microseconds, the given process id, and the profile's thread id. -/
theorem claim2_export_preorder (tp : ThreadProfile) (pid : Nat) :
    tp.to_chrome_tracing pid =
      (preOrderForest tp.root_region_executions).map (eventFor pid tp.thread_id) := by
  unfold ThreadProfile.to_chrome_tracing
  exact traverseList_eq_preOrder pid tp.thread_id tp.root_region_executions

/-- C3: the exporter writes a separator after every record, including the last
one — on a profile with a single execution, the emitted byte sequence is the
record followed by a trailing `","`, so wrapping it in `[`…`]` does not give a
well-formed JSON array.  This evaluates the code at the failing input. -/
theorem claim3_trailing_comma_bug :
    ThreadProfile.to_chrome_tracing_out exSingleTp 1 =
      stringifyEvent (eventFor 1 7 (RegionExecution.mk [] ⟨"m", "f", 1⟩ 0 5000)) ++ "," := by
  show stringifyEvent _ ++ "," ++ traverseOutList 1 7 [] ++ "" = _
  simp only [traverseOutList, String.append_empty]
  rfl

/-- C4 (counterexample): on the finalized profile with two nested activations
of the same identity, the identity's bucket lists starts `[20, 10]` — the
inner (later-started) execution first — and not `[10, 20]`, the chronological
creation order the claim requires. -/
theorem claim4_counterexample :
    finalizedb exC4 = true ∧
    bucketStartsOf exC4 ⟨"A", "f", 1⟩ = [20, 10] ∧
    bucketStartsOf exC4 ⟨"A", "f", 1⟩ ≠ [10, 20] := by
  refine ⟨by decide, by decide, by decide⟩

/-- C4 (amended): for every finalized Raw Thread Profile, each bucket of the
identity map lists exactly the Region Executions of that identity, in the
order reconstruction registers them: the depth-first post-order of the forest
(every execution is registered after all of its descendants, with roots and
children traversed in increasing index order). -/
theorem claim4_identity_map_postorder :
    ∀ rp : RawThreadProfile, finalizedb rp = true →
      ∃ tp, rp.profile = some tp ∧
        ∀ r : Region, lookupRegion tp.regions r =
          ((postPairsList tp.root_region_executions).filter (fun pr => pr.1 == r)).map
            Prod.snd := by
  intro rp hfin
  rw [finalizedb, Bool.and_eq_true] at hfin
  obtain ⟨roots, hprof, -⟩ := profile_charn rp hfin.1 hfin.2
  refine ⟨_, hprof, ?_⟩
  intro r
  have h := (insertAllExecs_charn (postPairsList roots) [] (by simp)).2 r
  simpa [lookupRegion] using h

theorem claim4_identity_map_postorder_witness :
    finalizedb exC4 = true ∧
    (∃ tp, RawThreadProfile.profile exC4 = some tp ∧
      ∀ r : Region, lookupRegion tp.regions r =
        ((postPairsList tp.root_region_executions).filter (fun pr => pr.1 == r)).map
          Prod.snd) :=
  ⟨by decide, claim4_identity_map_postorder exC4 (by decide)⟩

/-- C5: opening a region appends exactly one activation record at index
`length` (the current activation-list length) whose parent is the index on top
of the open-region stack (`none` when the stack is empty), and pushes that
index; and for every sequence of operations run from the initial state, every
activation stored anywhere (queued profiles or the live session) has
`parent < index` — the parent links form a forest. -/
theorem claim5_activation_invariants :
    (∀ (s : SysState) (n f : String) (l tid : Nat) (t : Int),
      regionNew n f l tid t s =
        { tls :=
            { raw_thread_profile := some (newSession n f l tid t s.tls),
              stack := s.tls.stack ++ [(oldBackends s.tls).length] },
          profiles := s.profiles }) ∧
    (∀ (tid : Nat) (ops : List Op) (s' : SysState),
      runOps tid ops (initState tid) = some s' →
      (∀ rp ∈ s'.profiles, parentsWFb 0 rp.region_backends = true) ∧
      (∀ rp, s'.tls.raw_thread_profile = some rp →
        parentsWFb 0 rp.region_backends = true)) := by
  constructor
  · intro s n f l tid t
    exact regionNew_charn n f l tid t s
  · intro tid ops s' hrun
    have hs' := stateInv_runOps tid ops (initState tid) s' (stateInv_initState tid) hrun
    obtain ⟨hq, htl⟩ := hs'
    refine ⟨fun rp h => (hq rp h).1, ?_⟩
    intro rp hraw
    unfold TlsInv at htl
    rw [hraw] at htl
    exact htl.1

theorem claim5_activation_invariants_witness :
    runOps 7 [Op.openR "m" "f" 1 0, Op.closeR 5] (initState 7) = some finalStateRT ∧
    ((∀ rp ∈ finalStateRT.profiles, parentsWFb 0 rp.region_backends = true) ∧
     (∀ rp, finalStateRT.tls.raw_thread_profile = some rp →
       parentsWFb 0 rp.region_backends = true)) :=
  ⟨by decide,
   claim5_activation_invariants.2 7 [Op.openR "m" "f" 1 0, Op.closeR 5] finalStateRT (by decide)⟩

/-- C6: on every invariant state whose open-region stack is non-empty, close
sets the end timestamp of the activation at the top-of-stack index — which was
previously unset, so it is set exactly once — pops the stack, and pushes the
whole session onto the queue exactly when the stack thereby becomes empty
(leaving the slot empty); otherwise the queue is untouched.  Concretely,
opening then closing one region produces exactly one Raw Thread Profile with
exactly one activation, and the queue is empty immediately after that profile
is received. -/
theorem claim6_close_semantics :
    (∀ (t : Int) (s : SysState) (index : Nat), StateInv s →
      s.tls.stack.getLast? = some index →
      ∃ rp rb,
        s.tls.raw_thread_profile = some rp ∧
        rp.region_backends[index]? = some rb ∧
        rb.end_ = none ∧
        regionDrop t s =
          (if s.tls.stack.length = 1 then
            some { tls := { raw_thread_profile := none, stack := [] },
                   profiles := s.profiles ++ [closedSession t rp index rb] }
          else
            some { tls := { raw_thread_profile := some (closedSession t rp index rb),
                            stack := s.tls.stack.dropLast },
                   profiles := s.profiles })) ∧
    (runOps 7 [Op.openR "m" "f" 1 0, Op.closeR 5] (initState 7) = some finalStateRT ∧
     finalStateRT.profiles = [rtProfile] ∧
     rtProfile.region_backends.length = 1 ∧
     finalStateRT.tls.raw_thread_profile = none ∧
     tryRecv finalStateRT.profiles = (some rtProfile, []) ∧
     tryRecv [] = (none, [])) := by
  constructor
  · intro t s index hs hlast
    exact regionDrop_charn t s hs index hlast
  · refine ⟨by decide, by decide, by decide, by decide, by decide, by decide⟩

theorem claim6_close_semantics_witness :
    StateInv (regionNew "m" "f" 1 7 0 (initState 7)) ∧
    (regionNew "m" "f" 1 7 0 (initState 7)).tls.stack.getLast? = some 0 ∧
    (∃ rp rb,
      (regionNew "m" "f" 1 7 0 (initState 7)).tls.raw_thread_profile = some rp ∧
      rp.region_backends[0]? = some rb ∧
      rb.end_ = none ∧
      regionDrop 5 (regionNew "m" "f" 1 7 0 (initState 7)) =
        (if (regionNew "m" "f" 1 7 0 (initState 7)).tls.stack.length = 1 then
          some { tls := { raw_thread_profile := none, stack := [] },
                 profiles := (regionNew "m" "f" 1 7 0 (initState 7)).profiles ++
                   [closedSession 5 rp 0 rb] }
        else
          some { tls := { raw_thread_profile := some (closedSession 5 rp 0 rb),
                          stack := (regionNew "m" "f" 1 7 0 (initState 7)).tls.stack.dropLast },
                 profiles := (regionNew "m" "f" 1 7 0 (initState 7)).profiles })) :=
  ⟨stateInv_regionNew "m" "f" 1 7 0 (initState 7) (stateInv_initState 7),
   by decide,
   claim6_close_semantics.1 5 (regionNew "m" "f" 1 7 0 (initState 7)) 0
     (stateInv_regionNew "m" "f" 1 7 0 (initState 7) (stateInv_initState 7)) (by decide)⟩

/-- C7: for every finalized Raw Thread Profile, the reconstructed identity map
is keyed by the full (name, file, line) triple — every execution in a bucket
carries exactly the bucket's identity, and the keys are pairwise distinct —
and iterating the map yields the identities in strictly increasing
lexicographic order by name, then file, then line (`Region.lt`). -/
theorem claim7_identity_map_ordered :
    ∀ rp : RawThreadProfile, finalizedb rp = true →
      ∃ tp, rp.profile = some tp ∧
        List.Pairwise (fun a b => Region.lt a.1 b.1) tp.regions ∧
        (∀ kv ∈ tp.regions, ∀ e ∈ kv.2, RegionExecution.region e = kv.1) := by
  intro rp hfin
  rw [finalizedb, Bool.and_eq_true] at hfin
  obtain ⟨roots, hprof, -⟩ := profile_charn rp hfin.1 hfin.2
  refine ⟨_, hprof, ?_, ?_⟩
  · exact (insertAllExecs_charn (postPairsList roots) [] (by simp)).1
  · exact mapCoherent_insertAllExecs (postPairsList roots) []
      (fun kv h => absurd h (List.not_mem_nil kv)) (postPairsList_coherent roots)

theorem claim7_identity_map_ordered_witness :
    finalizedb exAB = true ∧
    (∃ tp, RawThreadProfile.profile exAB = some tp ∧
      List.Pairwise (fun a b => Region.lt a.1 b.1) tp.regions ∧
      (∀ kv ∈ tp.regions, ∀ e ∈ kv.2, RegionExecution.region e = kv.1)) :=
  ⟨by decide, claim7_identity_map_ordered exAB (by decide)⟩

/-- C8: with well-formed parent links, reconstruction returns normally exactly
when every activation of the input carries an end timestamp; if any end is
absent, `profile` panics (`none`) instead of producing a Thread Profile. -/
theorem claim8_reconstruction_requires_ends :
    ∀ rp : RawThreadProfile, parentsWFb 0 rp.region_backends = true →
      (endsPresentb rp.region_backends = true ↔ (rp.profile).isSome = true) := by
  intro rp hpar
  constructor
  · intro hend
    obtain ⟨roots, hprof, -⟩ := profile_charn rp hpar hend
    rw [hprof]; rfl
  · intro hsucc
    exact profile_success_ends rp hpar hsucc

theorem claim8_reconstruction_requires_ends_witness :
    parentsWFb 0 exAB.region_backends = true ∧
    (endsPresentb exAB.region_backends = true ↔
      (RawThreadProfile.profile exAB).isSome = true) :=
  ⟨by decide, claim8_reconstruction_requires_ends exAB (by decide)⟩

/-- C9: non-blocking receive is a total function of the queue state: it
returns the front element (`none` on the empty queue) and the rest of the
queue, and repeatedly draining from the empty queue keeps returning `none`
with the queue unchanged. -/
theorem claim9_try_recv_nonblocking :
    (∀ q : List RawThreadProfile, tryRecv q = (q.head?, q.tail)) ∧
    (∀ n : Nat, tryRecv ((fun q => (tryRecv q).2)^[n] []) = (none, [])) := by
  constructor
  · intro q
    cases q <;> rfl
  · intro n
    have h : (fun q : List RawThreadProfile => (tryRecv q).2)^[n] [] = [] := by
      induction n with
      | zero => rfl
      | succ m ih =>
        rw [Function.iterate_succ_apply', ih]
        rfl
    rw [h]
    rfl

/-- C10: reconstruction does not consume its input — `profile` is a pure
function of the raw profile — so on every finalized Raw Thread Profile it can
be repeated: it succeeds, preserves the thread id, and any two invocations
return structurally equal Thread Profiles. -/
theorem claim10_profile_repeatable :
    ∀ rp : RawThreadProfile, finalizedb rp = true →
      (∃ tp, rp.profile = some tp ∧ tp.thread_id = rp.thread_id) ∧
      (∀ tp1 tp2, rp.profile = some tp1 → rp.profile = some tp2 → tp1 = tp2) := by
  intro rp hfin
  rw [finalizedb, Bool.and_eq_true] at hfin
  obtain ⟨roots, hprof, -⟩ := profile_charn rp hfin.1 hfin.2
  refine ⟨⟨_, hprof, rfl⟩, ?_⟩
  intro tp1 tp2 h1 h2
  rw [h1] at h2
  exact Option.some.inj h2

theorem claim10_profile_repeatable_witness :
    finalizedb exAB = true ∧
    ((∃ tp, RawThreadProfile.profile exAB = some tp ∧ tp.thread_id = exAB.thread_id) ∧
     (∀ tp1 tp2, RawThreadProfile.profile exAB = some tp1 →
       RawThreadProfile.profile exAB = some tp2 → tp1 = tp2)) :=
  ⟨by decide, claim10_profile_repeatable exAB (by decide)⟩
